import Mathlib

/-!
Shallow embedding of the packed-bit grid module `src/plane.py` of the
`fifth` repository (class `Plane`: construction, `__getitem__`,
`randomize`, `flatten`, `bits`), together with theorems settling the
specification claims about it.

Modelling conventions:
* A bitarray is a `List Bool` (`Row`), most significant bit first, exactly
  as `bin(v)[2:].zfill(N)` lays bits out.
* A numpy object array of bit rows is modelled by its row-major buffer: a
  `Store` holds the flat list of rows of one root grid, and an ndarray
  view is `(dims, base)` — the sub-block of the buffer starting at `base`
  with logical dimensions `dims`.  All array views produced by the code
  come from prefix indexing of a contiguous row-major array, hence are
  themselves contiguous, so this representation is exact.
* A one-dimensional plane stores its bitarray directly (`GridRep.bitrow`),
  as the Python code does.  The Python object is shared by reference, but
  the core never mutates a bitarray in place (its only mutation,
  `randomize`, rebinds or replaces whole rows), so holding the row value
  is observationally equivalent for every operation modelled here.
* Python exceptions are the `PyErr` codes of `Except`; indices are `Int`
  because Python indices may be negative (numpy and bitarray wrap them).
* The random draws of `randomize` are an oracle `draws : Nat → Nat`
  giving the successive results of `random.randrange(0, 2**N - 1)`;
  the guarantee of `randrange` (each value lies in `[0, 2^N - 1)`) is a
  hypothesis of the theorems that need it.
-/

deriving instance DecidableEq for Except

namespace Fifth

/-- A bitarray: a row of bits, most significant first. -/
abbrev Row := List Bool

/-- The Python exceptions the modelled code can raise. -/
inductive PyErr where
  | indexError
  | typeError
  | attributeError
  | valueError
deriving DecidableEq

/-- The row-major buffer of bit rows underlying one root grid
(the numpy object array of bitarrays). -/
structure Store where
  rows : List Row
deriving DecidableEq

/-- What `self.grid` can hold: a numpy object-array view (`dims`, `base`
into the store), a bitarray (one-dimensional planes), or a bare bit that
the fallthrough branch of `__getitem__` can wrap into a plane. -/
inductive GridRep where
  | ndview (dims : List Nat) (base : Nat)
  | bitrow (r : Row)
  | pybit (b : Bool)
deriving DecidableEq

/-- The `Plane` object: its declared shape and its `grid` member.
`self.N` is always computed from the shape at construction, so it is a
derived field here. -/
structure Plane where
  shape : List Nat
  grid : GridRep
deriving DecidableEq

/-- Mirrors `self.N = 0 if not len(shape) else shape[-1]`. -/
def Plane.N (p : Plane) : Nat := p.shape.getLastD 0

/-- Python index normalisation against one dimension `d`: negative
indices wrap (`i + d`), any index outside `[-d, d)` is an IndexError.
This is the semantics shared by numpy axes and by bitarray. -/
def normIdx (d : Nat) (i : Int) : Except PyErr Nat :=
  if i < 0 then
    if i + d < 0 then .error .indexError else .ok (i + d).toNat
  else if i < (d : Int) then .ok i.toNat else .error .indexError

/-- Result of indexing a numpy array with a (possibly short) tuple of
scalars: either a sub-array view or the stored element at an address. -/
inductive NpRes where
  | sub (dims : List Nat) (base : Nat)
  | elem (addr : Nat)
deriving DecidableEq

/-- numpy basic indexing of the view `(dims, base)` with a tuple of
integer scalars: each component is normalised against its axis, a tuple
longer than the number of axes is an IndexError, a full tuple resolves
to the element, a shorter one to the sub-view (prefix indexing of a
contiguous row-major array is again contiguous). -/
def npIndex : List Nat → Nat → List Int → Except PyErr NpRes
  | [], base, [] => .ok (.elem base)
  | d :: ds, base, [] => .ok (.sub (d :: ds) base)
  | [], _, _ :: _ => .error .indexError
  | d :: ds, base, i :: t =>
    match normIdx d i with
    | .error e => .error e
    | .ok j => npIndex ds (base + j * ds.prod) t

/-- bitarray indexing with one integer: wraps negatives, raises
IndexError out of range, returns the bit. -/
def bitIndex (r : Row) (i : Int) : Except PyErr Bool :=
  match normIdx r.length i with
  | .error e => .error e
  | .ok j => .ok (r.getD j false)

/-- The index forms of `__getitem__` modelled here: a coordinate tuple,
or a single integer scalar. -/
inductive PIndex where
  | tup (t : List Int)
  | scalar (i : Int)
deriving DecidableEq

/-- What `__getitem__` can return: a bit, a wrapped `Plane`, or (only on
inconsistently constructed planes) a raw bitarray or raw ndarray. -/
inductive GetRes where
  | bit (b : Bool)
  | plane (p : Plane)
  | row (r : Row)
  | arr (dims : List Nat) (base : Nat)
deriving DecidableEq

/-- `Plane.__getitem__`, line by line.  Tuple whose length equals the
shape length: `b_array = self.grid[index[:-1]]; return b_array[index[-1]]`
(on a bitarray grid the tuple index raises TypeError; on an ndarray the
components resolve through `npIndex`, and the last component indexes the
obtained bitarray).  Shorter or longer tuple:
`subgrid = self.grid[index]; return Plane(subgrid.shape + (self.N,), subgrid)`
— if `subgrid` came out as a bitarray element, `subgrid.shape` raises
AttributeError.  Non-tuple scalar on a one-dimensional plane: index the
bitarray directly.  Non-tuple scalar otherwise (fallthrough):
`tmp = self.grid[index]`, wrap in `Plane(tmp.shape + (self.N,), tmp)`,
and on AttributeError wrap as `Plane((self.N,), tmp)`. -/
def Plane.getitem (p : Plane) (store : Store) (idx : PIndex) :
    Except PyErr GetRes :=
  match idx with
  | .tup t =>
    if t.length = p.shape.length then
      match p.grid with
      | .bitrow _ => .error .typeError
      | .pybit _ => .error .typeError
      | .ndview dims base =>
        match npIndex dims base t.dropLast with
        | .error e => .error e
        | .ok (.elem addr) =>
          match t.getLast? with
          | none => .error .indexError
          | some last =>
            match bitIndex (store.rows.getD addr []) last with
            | .error e => .error e
            | .ok b => .ok (.bit b)
        | .ok (.sub dims' base') =>
          match t.getLast? with
          | none => .error .indexError
          | some last =>
            match npIndex dims' base' [last] with
            | .error e => .error e
            | .ok (.elem addr) => .ok (.row (store.rows.getD addr []))
            | .ok (.sub dims'' base'') => .ok (.arr dims'' base'')
    else
      match p.grid with
      | .bitrow _ => .error .typeError
      | .pybit _ => .error .typeError
      | .ndview dims base =>
        match npIndex dims base t with
        | .error e => .error e
        | .ok (.elem _) => .error .attributeError
        | .ok (.sub dims' base') =>
          .ok (.plane ⟨dims' ++ [p.N], .ndview dims' base'⟩)
  | .scalar i =>
    if p.shape.length = 1 then
      match p.grid with
      | .bitrow r =>
        match bitIndex r i with
        | .error e => .error e
        | .ok b => .ok (.bit b)
      | .pybit _ => .error .typeError
      | .ndview dims base =>
        match npIndex dims base [i] with
        | .error e => .error e
        | .ok (.elem addr) => .ok (.row (store.rows.getD addr []))
        | .ok (.sub dims' base') => .ok (.arr dims' base')
    else
      match p.grid with
      | .bitrow r =>
        match bitIndex r i with
        | .error e => .error e
        | .ok b => .ok (.plane ⟨[p.N], .pybit b⟩)
      | .pybit _ => .error .typeError
      | .ndview dims base =>
        match npIndex dims base [i] with
        | .error e => .error e
        | .ok (.sub dims' base') =>
          .ok (.plane ⟨dims' ++ [p.N], .ndview dims' base'⟩)
        | .ok (.elem addr) =>
          .ok (.plane ⟨[p.N], .bitrow (store.rows.getD addr [])⟩)

/-- Binary digits of `n`, least significant first, with explicit fuel so
that the definition is structural (`bitsLEAux n n` is used with fuel `n`,
which always suffices). -/
def bitsLEAux : Nat → Nat → List Bool
  | 0, _ => []
  | f + 1, n => if n = 0 then [] else decide (n % 2 = 1) :: bitsLEAux f (n / 2)

/-- Binary digits of `n`, least significant first (`[]` for `0`). -/
def bitsLE (n : Nat) : List Bool := bitsLEAux n n

/-- `bin(v)[2:]` as a list of bits, most significant first: `"0"` for
zero, else the binary expansion without leading zeros. -/
def binDigits (v : Nat) : List Bool :=
  if v = 0 then [false] else (bitsLE v).reverse

/-- `bin(v)[2:].zfill(N)`: left-pad with zero bits to width `N` (a longer
string is left as is, exactly like `str.zfill`). -/
def encodeRow (N v : Nat) : Row :=
  List.replicate (N - (binDigits v).length) false ++ binDigits v

/-- Writes rows `f 0, …, f (k-1)` at buffer positions
`base, …, base+k-1`, in loop order — the effect of
`for i in range(size): self.grid.flat[i] = bitarray(...)`. -/
def writeRows (rows : List Row) (base : Nat) (f : Nat → Row) : Nat → List Row
  | 0 => rows
  | k + 1 => (writeRows rows base f k).set (base + k) (f k)

/-- `Plane.randomize`, with the successive `randrange(0, 2**N - 1)`
results supplied by the oracle `draws`.  Empty shape: no-op.
`randrange(0, m)` with `m = 0` raises ValueError, which happens exactly
when `N = 0` and a draw is attempted.  One-dimensional plane: rebinds
`self.grid` to a fresh bitarray (the store is untouched).  Otherwise:
overwrites every row of the grid's buffer region (`self.grid.flat[i]`);
a bitarray or plain value has no `.size`, hence AttributeError. -/
def Plane.randomize (p : Plane) (store : Store) (draws : Nat → Nat) :
    Except PyErr (Plane × Store) :=
  if p.shape.length = 0 then .ok (p, store)
  else
    let maxU := 2 ^ p.N - 1
    if p.shape.length = 1 then
      if maxU = 0 then .error .valueError
      else .ok (⟨p.shape, .bitrow (encodeRow p.N (draws 0))⟩, store)
    else
      match p.grid with
      | .ndview dims base =>
        if dims.prod = 0 then .ok (p, store)
        else if maxU = 0 then .error .valueError
        else
          .ok (p, ⟨writeRows store.rows base
            (fun i => encodeRow p.N (draws i)) dims.prod⟩)
      | .bitrow _ => .error .attributeError
      | .pybit _ => .error .attributeError

/-- The loop of `Plane.flatten` on the list of (coordinate, shape) pairs
`zip(coordinate[:-1], shape)`: returns the accumulated
`(flat_index, gridprod)` after the reversed-range iteration. -/
def flatAux : List (Int × Nat) → Int × Int
  | [] => (0, 1)
  | (ci, si) :: rest =>
    let fg := flatAux rest
    (ci * fg.2 + fg.1, (si : Int) * fg.2)

/-- `Plane.flatten`: `coordinate[-1]` on an empty coordinate raises
IndexError; the loop reads `self.shape[i]` for `i < len(coordinate)-1`
and raises IndexError when that runs past the shape; otherwise the pair
`(flat_index, coordinate[-1])` is returned with no bounds checking. -/
def Plane.flatten (p : Plane) (c : List Int) : Except PyErr (Int × Int) :=
  if c.length = 0 then .error .indexError
  else if p.shape.length + 1 < c.length then .error .indexError
  else .ok ((flatAux (c.dropLast.zip p.shape)).1, c.getLastD 0)

/-- A dense numpy result of `Plane.bits`: a boolean array
(`dims`, row-major `data`) or — only reachable from inconsistently
constructed planes — an object array of rows. -/
inductive Dense where
  | arr (dims : List Nat) (data : List Bool)
  | objarr (dims : List Nat) (rows : List Row)
deriving DecidableEq

/-- The rows of the buffer region `[base, base+size)`, in storage order
(`self.grid.flat[i]` for `i in range(size)`). -/
def regionRows (store : Store) (base size : Nat) : List Row :=
  (List.range size).map (fun i => store.rows.getD (base + i) [])

/-- Whether a list of rows all have one common length (so that
`np.array` of their expansions forms a dense two-dimensional array). -/
def allSameLen : List Row → Bool
  | [] => true
  | r :: rs => rs.all (fun x => x.length == r.length)

/-- `Plane.bits`.  One-dimensional plane: `np.array(self.grid)` is the
row itself as a boolean array.  Otherwise: expand every row of the
buffer region, `np.array` the list of lists (dense if the lengths agree,
an object array of the rows if ragged), and `np.reshape` to the logical
shape — ValueError when the element count does not match. -/
def Plane.bits (p : Plane) (store : Store) : Except PyErr Dense :=
  if p.shape.length = 1 then
    match p.grid with
    | .bitrow r => .ok (.arr [r.length] r)
    | .pybit b => .ok (.arr [] [b])
    | .ndview dims base => .ok (.objarr dims (regionRows store base dims.prod))
  else
    match p.grid with
    | .bitrow _ => .error .attributeError
    | .pybit _ => .error .attributeError
    | .ndview dims base =>
      let rs := regionRows store base dims.prod
      if allSameLen rs then
        if (rs.map List.length).sum = p.shape.prod then
          .ok (.arr p.shape rs.flatten)
        else .error .valueError
      else
        if rs.length = p.shape.prod then .ok (.objarr p.shape rs)
        else .error .valueError

/-- Default construction `Plane(shape)` (no caller-supplied grid):
a one-dimensional plane gets the zero row `self.N * bitarray('0')`; any
other shape gets a fresh buffer of `prod(shape[:-1])` zero rows
(`np.empty(shape[:-1])` filled in by the loop; the empty shape gives the
zero-dimensional array, one cell).  Returns the plane together with its
own fresh buffer. -/
def Plane.mk0 (shape : List Nat) : Plane × Store :=
  if shape.length = 1 then
    (⟨shape, .bitrow (List.replicate (shape.getLastD 0) false)⟩, ⟨[]⟩)
  else
    (⟨shape, .ndview shape.dropLast 0⟩,
     ⟨List.replicate shape.dropLast.prod
        (List.replicate (shape.getLastD 0) false)⟩)

/-- Construction `Plane(shape, grid)` with caller-supplied storage: the
constructor stores both members verbatim and performs no validation of
any kind. -/
def Plane.mkGrid (shape : List Nat) (g : GridRep) : Plane := ⟨shape, g⟩

/-- Consistency of a supplied storage with a declared shape (what a
`ShapeMismatch` check would have to test): a bitarray of width
`shape[-1]` for a one-dimensional shape, an ndarray of dimensions
`shape[:-1]` otherwise. -/
def gridMatchesShape (shape : List Nat) : GridRep → Bool
  | .bitrow r => shape.length == 1 && r.length == shape.getLastD 0
  | .ndview dims _ => shape.length != 1 && dims == shape.dropLast
  | .pybit _ => false

/-- Row-major linear index of (a prefix of) a coordinate within an array
of the given dimensions: each component is weighted by the product of
the dimensions after its own. -/
def rowMajorIdx : List Nat → List Nat → Nat
  | _, [] => 0
  | [], _ :: _ => 0
  | _ :: ds, c :: cs => c * ds.prod + rowMajorIdx ds cs

/-- Reading one cell of a dense materialised array at a full coordinate
(row-major layout); `false` on an object array. -/
def denseGet (d : Dense) (c : List Nat) : Bool :=
  match d with
  | .arr dims data => data.getD (rowMajorIdx dims c) false
  | .objarr _ _ => false

/-- Numeric value of a bit row read most-significant-bit first. -/
def rowVal (l : List Bool) : Nat :=
  l.foldl (fun a b => 2 * a + cond b 1 0) 0

/-- A coordinate of non-negative components, as the Python integers it
is passed as. -/
def natCoords (cs : List Nat) : List Int := cs.map Int.ofNat

/-- Every bit row belonging to the plane's storage has width `self.N`
(for an ndarray grid: every row of its buffer region). -/
def planeRowsLen (p : Plane) (store : Store) : Prop :=
  match p.grid with
  | .bitrow r => r.length = p.N
  | .ndview dims base =>
    ∀ q, q < dims.prod → (store.rows.getD (base + q) []).length = p.N
  | .pybit _ => True

/-! ### Arithmetic of the bit encoding `bin(v)[2:].zfill(N)` -/

theorem bitsLEAux_invar (f : Nat) :
    ∀ (g n : Nat), n ≤ f → n ≤ g → bitsLEAux f n = bitsLEAux g n := by
  induction f with
  | zero =>
    intro g n hf hg
    have hn : n = 0 := Nat.le_zero.mp hf
    subst hn
    cases g <;> simp [bitsLEAux]
  | succ f ih =>
    intro g n hf hg
    match g, n with
    | g, 0 => cases g <;> simp [bitsLEAux]
    | 0, n + 1 => omega
    | g + 1, n + 1 =>
      simp only [bitsLEAux, if_neg (Nat.succ_ne_zero n)]
      have h2 : (n + 1) / 2 < n + 1 := Nat.div_lt_self (Nat.succ_pos n) (by omega)
      exact congrArg _ (ih g ((n + 1) / 2) (by omega) (by omega))

theorem bitsLE_zero : bitsLE 0 = [] := rfl

theorem bitsLE_of_ne (n : Nat) (h : n ≠ 0) :
    bitsLE n = decide (n % 2 = 1) :: bitsLE (n / 2) := by
  match n, h with
  | m + 1, _ =>
    show bitsLEAux (m + 1) (m + 1) = _
    simp only [bitsLEAux, if_neg (Nat.succ_ne_zero m)]
    have h2 : (m + 1) / 2 < m + 1 := Nat.div_lt_self (Nat.succ_pos m) (by omega)
    exact congrArg _ (bitsLEAux_invar m ((m + 1) / 2) ((m + 1) / 2) (by omega) le_rfl)

theorem rowVal_append (l : List Bool) (b : Bool) :
    rowVal (l ++ [b]) = 2 * rowVal l + cond b 1 0 := by
  simp [rowVal, List.foldl_append]

theorem rowVal_cons_false (l : List Bool) : rowVal (false :: l) = rowVal l := rfl

theorem rowVal_replicate_false (k : Nat) (l : List Bool) :
    rowVal (List.replicate k false ++ l) = rowVal l := by
  induction k with
  | zero => rfl
  | succ k ih => rw [List.replicate_succ, List.cons_append, rowVal_cons_false]; exact ih

theorem rowVal_replicate_true (n : Nat) :
    rowVal (List.replicate n true) = 2 ^ n - 1 := by
  induction n with
  | zero => rfl
  | succ n ih =>
    rw [List.replicate_succ', rowVal_append, ih]
    have h1 : 1 ≤ 2 ^ n := Nat.one_le_two_pow
    have h2 : 2 ^ (n + 1) = 2 ^ n * 2 := pow_succ 2 n
    simp only [cond_true]
    omega

theorem rowVal_bitsLE_rev (n : Nat) : rowVal (bitsLE n).reverse = n := by
  induction n using Nat.strong_induction_on with
  | _ n ih =>
    by_cases h : n = 0
    · subst h; rfl
    · rw [bitsLE_of_ne n h, List.reverse_cons, rowVal_append]
      have hd : n / 2 < n := Nat.div_lt_self (Nat.pos_of_ne_zero h) (by omega)
      rw [ih _ hd]
      have hb : (cond (decide (n % 2 = 1)) 1 0 : Nat) = n % 2 := by
        rcases Nat.mod_two_eq_zero_or_one n with h2 | h2 <;> simp [h2]
      rw [hb]
      omega

theorem rowVal_binDigits (v : Nat) : rowVal (binDigits v) = v := by
  unfold binDigits
  by_cases h : v = 0
  · subst h; rfl
  · rw [if_neg h]; exact rowVal_bitsLE_rev v

theorem rowVal_encodeRow (N v : Nat) : rowVal (encodeRow N v) = v := by
  unfold encodeRow; rw [rowVal_replicate_false, rowVal_binDigits]

theorem bitsLE_length_le (k : Nat) : ∀ n, n < 2 ^ k → (bitsLE n).length ≤ k := by
  induction k with
  | zero =>
    intro n h
    have hn : n = 0 := by simpa using Nat.lt_one_iff.mp (by simpa using h)
    subst hn; simp [bitsLE_zero]
  | succ k ih =>
    intro n h
    by_cases h0 : n = 0
    · subst h0; simp [bitsLE_zero]
    · rw [bitsLE_of_ne n h0]
      have h2 : 2 ^ (k + 1) = 2 ^ k * 2 := pow_succ 2 k
      have hd : n / 2 < 2 ^ k := by omega
      simpa using Nat.succ_le_succ (ih _ hd)

theorem binDigits_length_le (N v : Nat) (hN : 1 ≤ N) (hv : v < 2 ^ N) :
    (binDigits v).length ≤ N := by
  unfold binDigits
  by_cases h : v = 0
  · subst h; simpa using hN
  · rw [if_neg h]; simpa using bitsLE_length_le N v hv

theorem encodeRow_length (N v : Nat) (hN : 1 ≤ N) (hv : v < 2 ^ N) :
    (encodeRow N v).length = N := by
  have h := binDigits_length_le N v hN hv
  simp only [encodeRow, List.length_append, List.length_replicate]
  omega

theorem encodeRow_ne_ones (N v : Nat) (hv : v < 2 ^ N - 1) :
    encodeRow N v ≠ List.replicate N true := by
  intro h
  have h1 := rowVal_encodeRow N v
  rw [h, rowVal_replicate_true] at h1
  omega

theorem width_pos_of_draw (N v : Nat) (hv : v < 2 ^ N - 1) : 1 ≤ N := by
  rcases Nat.eq_zero_or_pos N with h | h
  · subst h; simp at hv
  · exact h

/-! ### Buffer writes and region reads -/

theorem getD_set_self {α : Type} (l : List α) (i : Nat) (a d : α)
    (h : i < l.length) : (l.set i a).getD i d = a := by
  induction l generalizing i with
  | nil => simp at h
  | cons x xs ih =>
    cases i with
    | zero => rfl
    | succ i =>
      show (xs.set i a).getD i d = a
      exact ih i (by simpa using h)

theorem getD_set_ne {α : Type} (l : List α) (i j : Nat) (a d : α)
    (h : i ≠ j) : (l.set i a).getD j d = l.getD j d := by
  induction l generalizing i j with
  | nil => rfl
  | cons x xs ih =>
    cases i with
    | zero =>
      cases j with
      | zero => exact absurd rfl h
      | succ j => rfl
    | succ i =>
      cases j with
      | zero => rfl
      | succ j =>
        show (xs.set i a).getD j d = xs.getD j d
        exact ih i j (by omega)

theorem writeRows_length (rows : List Row) (base : Nat) (f : Nat → Row)
    (k : Nat) : (writeRows rows base f k).length = rows.length := by
  induction k with
  | zero => rfl
  | succ k ih => simp [writeRows, List.length_set, ih]

theorem writeRows_getD (rows : List Row) (base : Nat) (f : Nat → Row)
    (k q : Nat) (hq : q < k) (hk : base + k ≤ rows.length) :
    (writeRows rows base f k).getD (base + q) [] = f q := by
  induction k with
  | zero => omega
  | succ k ih =>
    by_cases h : q = k
    · subst h
      exact getD_set_self _ _ _ _ (by rw [writeRows_length]; omega)
    · show ((writeRows rows base f k).set (base + k) (f k)).getD (base + q) [] = f q
      rw [getD_set_ne _ _ _ _ _ (by omega)]
      exact ih (by omega) (by omega)

theorem regionRows_length (store : Store) (base size : Nat) :
    (regionRows store base size).length = size := by
  simp [regionRows]

theorem regionRows_getD (store : Store) (base size q : Nat) (h : q < size) :
    (regionRows store base size).getD q [] = store.rows.getD (base + q) [] := by
  simp [regionRows, List.getD_eq_getElem?_getD, List.getElem?_map,
    List.getElem?_range h]

theorem regionRows_mem (store : Store) (base size : Nat) (r : Row)
    (h : r ∈ regionRows store base size) :
    ∃ q, q < size ∧ r = store.rows.getD (base + q) [] := by
  simp only [regionRows, List.mem_map, List.mem_range] at h
  obtain ⟨q, hq, rfl⟩ := h
  exact ⟨q, hq, rfl⟩

theorem allSameLen_of_len (rs : List Row) (n : Nat)
    (h : ∀ r ∈ rs, r.length = n) : allSameLen rs = true := by
  cases rs with
  | nil => rfl
  | cons r rs' =>
    simp only [allSameLen, List.all_eq_true]
    intro x hx
    have h1 := h x (by simp [hx])
    have h2 := h r (by simp)
    simp [h1, h2]

theorem len_sum_of_len (rs : List Row) (n : Nat)
    (h : ∀ r ∈ rs, r.length = n) :
    (rs.map List.length).sum = rs.length * n := by
  induction rs with
  | nil => simp
  | cons r rs' ih =>
    simp only [List.map_cons, List.sum_cons, List.length_cons]
    rw [h r (by simp), ih (fun x hx => h x (by simp [hx]))]
    ring

theorem flatten_getD (rs : List Row) (n : Nat)
    (h : ∀ r ∈ rs, r.length = n) :
    ∀ (q j : Nat), q < rs.length → j < n →
    rs.flatten.getD (q * n + j) false = (rs.getD q []).getD j false := by
  induction rs with
  | nil => intro q j hq hj; simp at hq
  | cons r rs' ih =>
    intro q j hq hj
    have hr : r.length = n := h r (by simp)
    cases q with
    | zero =>
      rw [List.flatten_cons]
      have h0 : 0 * n + j = j := by omega
      rw [h0]
      show (r ++ rs'.flatten).getD j false = r.getD j false
      exact List.getD_append _ _ _ _ (by omega)
    | succ q =>
      rw [List.flatten_cons]
      have harith : (q + 1) * n + j = r.length + (q * n + j) := by rw [hr]; ring
      rw [harith, List.getD_append_right _ _ _ _ (by omega)]
      have : r.length + (q * n + j) - r.length = q * n + j := by omega
      rw [this]
      exact ih (fun x hx => h x (by simp [hx])) q j (by simpa using hq) hj

/-! ### Row-major indexing -/

theorem rowMajorIdx_lt {cs ds : List Nat}
    (h : List.Forall₂ (· < ·) cs ds) : rowMajorIdx ds cs < ds.prod := by
  induction h with
  | nil => simp [rowMajorIdx]
  | @cons c d cs' ds' hcd htl ih =>
    simp only [rowMajorIdx, List.prod_cons]
    calc c * ds'.prod + rowMajorIdx ds' cs'
        < c * ds'.prod + ds'.prod := Nat.add_lt_add_left ih _
      _ = (c + 1) * ds'.prod := by ring
      _ ≤ d * ds'.prod := Nat.mul_le_mul_right _ hcd

theorem rowMajorIdx_append_first (A : List Nat) :
    ∀ (B cs : List Nat), cs.length = A.length →
    rowMajorIdx (A ++ B) cs = rowMajorIdx A cs * B.prod := by
  induction A with
  | nil =>
    intro B cs h
    cases cs with
    | nil => simp [rowMajorIdx]
    | cons c cs' => simp at h
  | cons a A ih =>
    intro B cs h
    cases cs with
    | nil => simp at h
    | cons c cs' =>
      simp only [List.cons_append, rowMajorIdx, List.prod_append,
        List.append_eq]
      rw [ih B cs' (by simpa using h)]
      ring

theorem rowMajorIdx_append_coords (ts : List Nat) :
    ∀ (ds cs : List Nat), ts.length ≤ ds.length →
    rowMajorIdx ds (ts ++ cs)
      = rowMajorIdx ds ts + rowMajorIdx (ds.drop ts.length) cs := by
  induction ts with
  | nil => intro ds cs h; cases ds <;> cases cs <;> simp [rowMajorIdx]
  | cons t ts' ih =>
    intro ds cs h
    cases ds with
    | nil => simp at h
    | cons d ds' =>
      simp only [List.cons_append, rowMajorIdx, List.length_cons,
        List.drop_succ_cons, List.append_eq]
      rw [ih ds' cs (by simpa using h)]
      omega

theorem flatAux_eq (cs : List Nat) : ∀ ds : List Nat, cs.length ≤ ds.length →
    flatAux ((natCoords cs).zip ds)
      = (((rowMajorIdx (ds.take cs.length) cs : Nat) : Int),
         (((ds.take cs.length).prod : Nat) : Int)) := by
  induction cs with
  | nil => intro ds h; simp [natCoords, flatAux, rowMajorIdx]
  | cons c cs' ih =>
    intro ds h
    cases ds with
    | nil => simp at h
    | cons d ds' =>
      rw [show (natCoords (c :: cs')).zip (d :: ds')
            = ((c : Int), d) :: (natCoords cs').zip ds' by
          simp [natCoords]]
      simp only [flatAux]
      rw [ih ds' (by simpa using h)]
      simp only [List.length_cons, List.take_succ_cons, rowMajorIdx,
        List.prod_cons, Prod.mk.injEq]
      constructor
      · push_cast; ring
      · push_cast; ring

/-! ### Resolution of numpy indices -/

theorem normIdx_coe (d j : Nat) (h : j < d) : normIdx d (j : Int) = .ok j := by
  unfold normIdx
  rw [if_neg (by omega), if_pos (by omega)]
  simp

theorem normIdx_coe_ge (d j : Nat) (h : d ≤ j) :
    normIdx d (j : Int) = .error .indexError := by
  unfold normIdx
  rw [if_neg (by omega), if_neg (by omega)]

theorem normIdx_error_eq (d : Nat) (i : Int) (e : PyErr)
    (h : normIdx d i = .error e) : e = .indexError := by
  unfold normIdx at h
  split_ifs at h <;> simp_all

theorem natCoords_cons (c : Nat) (cs : List Nat) :
    natCoords (c :: cs) = (c : Int) :: natCoords cs := by
  simp [natCoords]

theorem natCoords_append (cs cs' : List Nat) :
    natCoords (cs ++ cs') = natCoords cs ++ natCoords cs' := by
  simp [natCoords]

theorem natCoords_length (cs : List Nat) :
    (natCoords cs).length = cs.length := by
  simp [natCoords]

theorem forall₂_lt_append {cs ds cs' ds' : List Nat}
    (h1 : List.Forall₂ (· < ·) cs ds) (h2 : List.Forall₂ (· < ·) cs' ds') :
    List.Forall₂ (· < ·) (cs ++ cs') (ds ++ ds') := by
  induction h1 with
  | nil => simpa using h2
  | cons hab htl ih =>
    simp only [List.cons_append]
    exact List.Forall₂.cons hab ih

theorem npIndex_full : ∀ (cs ds : List Nat) (base : Nat),
    List.Forall₂ (· < ·) cs ds →
    npIndex ds base (natCoords cs) = .ok (.elem (base + rowMajorIdx ds cs)) := by
  intro cs
  induction cs with
  | nil =>
    intro ds base h
    cases h
    simp [natCoords, npIndex, rowMajorIdx]
  | cons c cs' ih =>
    intro ds base h
    cases ds with
    | nil => cases h
    | cons d ds' =>
      rw [List.forall₂_cons] at h
      obtain ⟨hcd, htl⟩ := h
      rw [natCoords_cons]
      simp only [npIndex, normIdx_coe d c hcd]
      rw [ih ds' (base + c * ds'.prod) htl]
      simp only [rowMajorIdx]
      have : base + c * ds'.prod + rowMajorIdx ds' cs'
          = base + (c * ds'.prod + rowMajorIdx ds' cs') := by omega
      rw [this]

theorem npIndex_sub : ∀ (ts ds : List Nat) (base : Nat),
    List.Forall₂ (· < ·) ts (ds.take ts.length) → ts.length < ds.length →
    npIndex ds base (natCoords ts)
      = .ok (.sub (ds.drop ts.length) (base + rowMajorIdx ds ts)) := by
  intro ts
  induction ts with
  | nil =>
    intro ds base h hlt
    cases ds with
    | nil => simp at hlt
    | cons d ds' => simp [natCoords, npIndex, rowMajorIdx]
  | cons t ts' ih =>
    intro ts_ds base h hlt
    cases ts_ds with
    | nil => simp at hlt
    | cons d ds' =>
      rw [List.length_cons, List.take_succ_cons, List.forall₂_cons] at h
      obtain ⟨htd, hts⟩ := h
      rw [natCoords_cons]
      simp only [npIndex, normIdx_coe d t htd]
      rw [ih ds' (base + t * ds'.prod) hts (by simpa using hlt)]
      simp only [List.length_cons, List.drop_succ_cons, rowMajorIdx]
      have : base + t * ds'.prod + rowMajorIdx ds' ts'
          = base + (t * ds'.prod + rowMajorIdx ds' ts') := by omega
      rw [this]

theorem npIndex_too_long : ∀ (ds : List Nat) (t : List Int) (base : Nat),
    ds.length < t.length → npIndex ds base t = .error .indexError := by
  intro ds
  induction ds with
  | nil =>
    intro t base h
    cases t with
    | nil => simp at h
    | cons i t' => rfl
  | cons d ds' ih =>
    intro t base h
    cases t with
    | nil => simp at h
    | cons i t' =>
      simp only [npIndex]
      cases hn : normIdx d i with
      | error e =>
        simp only [hn]
        rw [normIdx_error_eq d i e hn]
      | ok j =>
        simp only [hn]
        exact ih t' _ (by simpa using h)

theorem npIndex_oob : ∀ (cs ds : List Nat) (base : Nat),
    cs.length ≤ ds.length → ¬ List.Forall₂ (· < ·) cs (ds.take cs.length) →
    npIndex ds base (natCoords cs) = .error .indexError := by
  intro cs
  induction cs with
  | nil =>
    intro ds base h hn
    exact absurd List.Forall₂.nil hn
  | cons c cs' ih =>
    intro ds base h hn
    cases ds with
    | nil => simp at h
    | cons d ds' =>
      by_cases hcd : c < d
      · have hn' : ¬ List.Forall₂ (· < ·) cs' (ds'.take cs'.length) := by
          intro htl
          refine hn ?_
          rw [List.length_cons, List.take_succ_cons]
          exact List.Forall₂.cons hcd htl
        rw [natCoords_cons]
        simp only [npIndex, normIdx_coe d c hcd]
        exact ih ds' _ (by simpa using h) hn'
      · rw [natCoords_cons]
        simp only [npIndex, normIdx_coe_ge d c (by omega)]

/-! ### Reductions of `__getitem__` -/

theorem getitem_full_reduce (ds : List Nat) (n base : Nat) (store : Store)
    (cs : List Nat) (j : Nat) (hcs : List.Forall₂ (· < ·) cs ds) :
    Plane.getitem ⟨ds ++ [n], .ndview ds base⟩ store
        (.tup (natCoords (cs ++ [j])))
      = Except.map GetRes.bit
          (bitIndex (store.rows.getD (base + rowMajorIdx ds cs) []) (j : Int)) := by
  have hlen : (natCoords (cs ++ [j])).length = (ds ++ [n]).length := by
    simp [natCoords, hcs.length_eq]
  have hdrop : (natCoords (cs ++ [j])).dropLast = natCoords cs := by
    rw [natCoords_append]
    exact List.dropLast_concat
  have hlast : (natCoords (cs ++ [j])).getLast? = some ((j : Nat) : Int) := by
    rw [natCoords_append]
    exact List.getLast?_concat _
  simp only [Plane.getitem, hlen, hdrop, hlast, npIndex_full cs ds base hcs,
    if_pos rfl]
  cases hbi : bitIndex (store.rows.getD (base + rowMajorIdx ds cs) [])
      ((j : Nat) : Int) with
  | error e => simp [hbi, Except.map]
  | ok b => simp [hbi, Except.map]

theorem getitem_sub (ds : List Nat) (n base : Nat) (store : Store)
    (ts : List Nat) (h : List.Forall₂ (· < ·) ts (ds.take ts.length))
    (hlt : ts.length < ds.length) :
    Plane.getitem ⟨ds ++ [n], .ndview ds base⟩ store (.tup (natCoords ts))
      = .ok (.plane ⟨ds.drop ts.length ++ [n],
          .ndview (ds.drop ts.length) (base + rowMajorIdx ds ts)⟩) := by
  have hne : ¬ ((natCoords ts).length = (ds ++ [n]).length) := by
    simp only [natCoords_length, List.length_append, List.length_cons,
      List.length_nil]
    omega
  have hN : (⟨ds ++ [n], GridRep.ndview ds base⟩ : Plane).N = n := by
    simp [Plane.N, List.getLastD_concat]
  simp only [Plane.getitem, if_neg hne, npIndex_sub ts ds base h hlt, hN]

/-! ### Reductions of `randomize` and `bits` -/

theorem randomize_empty_shape (g : GridRep) (store : Store)
    (draws : Nat → Nat) :
    Plane.randomize ⟨[], g⟩ store draws = .ok (⟨[], g⟩, store) := rfl

theorem randomize_one (n : Nat) (g : GridRep) (store : Store)
    (draws : Nat → Nat) (hmax : 2 ^ n - 1 ≠ 0) :
    Plane.randomize ⟨[n], g⟩ store draws
      = .ok (⟨[n], .bitrow (encodeRow n (draws 0))⟩, store) := by
  simp [Plane.randomize, Plane.N, hmax]

theorem randomize_one_err (g : GridRep) (store : Store) (draws : Nat → Nat) :
    Plane.randomize ⟨[0], g⟩ store draws = .error .valueError := by
  simp [Plane.randomize, Plane.N]

theorem randomize_nd (ds : List Nat) (n base : Nat) (store : Store)
    (draws : Nat → Nat) (hds : ds ≠ []) (hmax : 2 ^ n - 1 ≠ 0)
    (hprod : ds.prod ≠ 0) :
    Plane.randomize ⟨ds ++ [n], .ndview ds base⟩ store draws
      = .ok (⟨ds ++ [n], .ndview ds base⟩,
          ⟨writeRows store.rows base (fun i => encodeRow n (draws i)) ds.prod⟩) := by
  have hN : (⟨ds ++ [n], GridRep.ndview ds base⟩ : Plane).N = n := by
    simp [Plane.N, List.getLastD_concat]
  simp [Plane.randomize, hN, hprod, hmax, hds]

theorem randomize_nd_empty (ds : List Nat) (n base : Nat) (store : Store)
    (draws : Nat → Nat) (hds : ds ≠ []) (hprod : ds.prod = 0) :
    Plane.randomize ⟨ds ++ [n], .ndview ds base⟩ store draws
      = .ok (⟨ds ++ [n], .ndview ds base⟩, store) := by
  simp [Plane.randomize, hprod, hds]

theorem randomize_nd_err (ds : List Nat) (base : Nat) (store : Store)
    (draws : Nat → Nat) (hds : ds ≠ []) (hprod : ds.prod ≠ 0) :
    Plane.randomize ⟨ds ++ [0], .ndview ds base⟩ store draws
      = .error .valueError := by
  have hN : (⟨ds ++ [0], GridRep.ndview ds base⟩ : Plane).N = 0 := by
    simp [Plane.N, List.getLastD_concat]
  simp [Plane.randomize, hN, hprod, hds]

theorem bits_nd (ds : List Nat) (n base : Nat) (store : Store)
    (hds : ds ≠ [])
    (hrows : ∀ q, q < ds.prod → (store.rows.getD (base + q) []).length = n) :
    Plane.bits ⟨ds ++ [n], .ndview ds base⟩ store
      = .ok (.arr (ds ++ [n]) (regionRows store base ds.prod).flatten) := by
  have hmem : ∀ r ∈ regionRows store base ds.prod, r.length = n := by
    intro r hr
    obtain ⟨q, hq, rfl⟩ := regionRows_mem _ _ _ _ hr
    exact hrows q hq
  have hall : allSameLen (regionRows store base ds.prod) = true :=
    allSameLen_of_len _ n hmem
  have hsum : ((regionRows store base ds.prod).map List.length).sum
      = (ds ++ [n]).prod := by
    rw [len_sum_of_len _ n hmem, regionRows_length]
    simp [List.prod_append]
  simp [Plane.bits, hall, hsum, hds]

/-! ### Claims -/

/-- C1.  The claim says: indexing any grid or view whose shape is
non-empty with a full-length in-range coordinate tuple returns a single
bit, in particular for one-dimensional grids indexed with a one-element
tuple.  On the code this fails precisely for the one-dimensional case:
`Plane((8,))[(3,)]` evaluates `self.grid[()]` on a bitarray, which
raises TypeError, while the scalar access `Plane((8,))[3]` does return
the bit — this theorem evaluates the embedded code at that failing
input. -/
theorem claim_C1_eval :
    (Plane.mk0 [8]).1.getitem (Plane.mk0 [8]).2 (.tup [3])
        = .error .typeError
    ∧ (Plane.mk0 [8]).1.getitem (Plane.mk0 [8]).2 (.scalar 3)
        = .ok (.bit false) :=
  ⟨rfl, rfl⟩

/-- C2.  The claim says: every in-range coordinate tuple shorter than
the shape yields an aliased view, e.g. for shape `(3,3,4)` both
`get((1,))` and `get((1,2))`.  On the code, a tuple one component short
of the full shape resolves `self.grid[index]` to a bare bitarray and
`subgrid.shape` raises AttributeError (the tuple branch has no
AttributeError fallback):  `get((1,))` yields the shape-`(3,4)` view as
claimed, but `get((1,2))` raises, and the full tuple `get((1,2,3))`
returns a bit. -/
theorem claim_C2_eval :
    (Plane.mk0 [3,3,4]).1.getitem (Plane.mk0 [3,3,4]).2 (.tup [1])
        = .ok (.plane ⟨[3,4], .ndview [3] 3⟩)
    ∧ (Plane.mk0 [3,3,4]).1.getitem (Plane.mk0 [3,3,4]).2 (.tup [1,2])
        = .error .attributeError
    ∧ (Plane.mk0 [3,3,4]).1.getitem (Plane.mk0 [3,3,4]).2 (.tup [1,2,3])
        = .ok (.bit false) :=
  ⟨rfl, rfl, rfl⟩

/-- C4, counterexample.  The claim says construction with storage whose
dimensions are inconsistent with the shape fails with a ShapeMismatch
error.  The code has no such check: constructing shape `(2,4)` over a
one-axis storage of three rows completes and stores both members
verbatim. -/
theorem claim_C4_cex :
    gridMatchesShape [2,4] (.ndview [3] 0) = false
    ∧ Plane.mkGrid [2,4] (.ndview [3] 0)
        = ⟨[2,4], .ndview [3] 0⟩ :=
  ⟨rfl, rfl⟩

/-- C4, amended.  Construction never validates caller-supplied storage:
for every shape and storage — in particular every storage inconsistent
with the shape — construction completes, storing shape and storage
exactly as given (nothing is truncated or padded, and no error of any
kind is raised). -/
theorem claim_C4_thm (shape : List Nat) (g : GridRep)
    (_h : gridMatchesShape shape g = false) :
    (Plane.mkGrid shape g).shape = shape ∧ (Plane.mkGrid shape g).grid = g :=
  ⟨rfl, rfl⟩

/-- C4, witness for the amended theorem at the concrete mismatched
input of the counterexample. -/
theorem claim_C4_witness :
    gridMatchesShape [2,4] (.ndview [3] 0) = false
    ∧ ((Plane.mkGrid [2,4] (.ndview [3] 0)).shape = [2,4]
       ∧ (Plane.mkGrid [2,4] (.ndview [3] 0)).grid = .ndview [3] 0) :=
  ⟨by decide, claim_C4_thm [2,4] (.ndview [3] 0) (by decide)⟩

/-- C6.  `flatten` of a full coordinate is the row-major linear index of
the outer coordinate within the outer array `shape[:-1]`, paired with
the unchanged last component; concretely `flatten((1,2,0)) = (5,0)` on
shape `(2,3,4)` and `flatten((3,)) = (0,3)` on shape `(8,)`; and
`flatten` is pure — it depends on the shape only, never on storage. -/
theorem claim_C6_thm :
    (∀ (p : Plane) (cs : List Nat) (x : Nat),
        (cs ++ [x]).length = p.shape.length →
        p.flatten (natCoords (cs ++ [x]))
          = .ok (((rowMajorIdx p.shape.dropLast cs : Nat) : Int), (x : Int)))
    ∧ (∀ (p q : Plane) (c : List Int),
        p.shape = q.shape → p.flatten c = q.flatten c)
    ∧ (Plane.mk0 [2,3,4]).1.flatten [1,2,0] = .ok (5, 0)
    ∧ (Plane.mk0 [8]).1.flatten [3] = .ok (0, 3) := by
  refine ⟨?_, ?_, rfl, rfl⟩
  · intro p cs x hlen
    unfold Plane.flatten
    have h0 : ¬ ((natCoords (cs ++ [x])).length = 0) := by
      simp [natCoords]
    rw [if_neg h0]
    have h1 : ¬ (p.shape.length + 1 < (natCoords (cs ++ [x])).length) := by
      rw [natCoords_length]
      omega
    rw [if_neg h1]
    have hdrop : (natCoords (cs ++ [x])).dropLast = natCoords cs := by
      rw [natCoords_append]
      exact List.dropLast_concat
    have hlast : (natCoords (cs ++ [x])).getLastD 0 = ((x : Nat) : Int) := by
      rw [natCoords_append]
      exact List.getLastD_concat _ _ _
    rw [hdrop, hlast]
    have hle : cs.length ≤ p.shape.length := by
      simp only [List.length_append, List.length_cons, List.length_nil] at hlen
      omega
    rw [flatAux_eq cs p.shape hle]
    have htake : p.shape.take cs.length = p.shape.dropLast := by
      rw [List.dropLast_eq_take]
      congr 1
      simp only [List.length_append, List.length_cons, List.length_nil] at hlen
      omega
    rw [htake]
  · intro p q c h
    unfold Plane.flatten
    rw [h]

/-- C6, witness: the general row-major statement applied to the concrete
shape `(2,3,4)` at coordinate `(1,2,0)`. -/
theorem claim_C6_witness :
    ([1,2] ++ [0]).length = (Plane.mk0 [2,3,4]).1.shape.length
    ∧ (Plane.mk0 [2,3,4]).1.flatten (natCoords ([1,2] ++ [0]))
        = .ok (((rowMajorIdx (Plane.mk0 [2,3,4]).1.shape.dropLast [1,2] : Nat) : Int),
               ((0 : Nat) : Int)) :=
  ⟨by decide, claim_C6_thm.1 (Plane.mk0 [2,3,4]).1 [1,2] 0 (by decide)⟩

/-- C10, counterexample.  The claim says every grid with non-empty shape
and bit width 0 has `randomize` raise an error.  Shape `(0,0)` is a
counterexample: its outer array is empty, the randomisation loop never
draws, and `randomize` completes as a no-op. -/
theorem claim_C10_cex :
    Plane.randomize (Plane.mk0 [0,0]).1 (Plane.mk0 [0,0]).2 (fun _ => 0)
      = .ok ((Plane.mk0 [0,0]).1, (Plane.mk0 [0,0]).2) := rfl

/-- C10, amended.  `randomize` raises ValueError (the draw over the
empty range `[0, 0)`) exactly when a draw is attempted with `N = 0`:
on every one-dimensional width-0 grid, and on every higher-dimensional
width-0 grid whose outer array is non-empty.  When the shape is empty,
or when the outer array is empty (some outer dimension is 0),
`randomize` completes as a no-op, so the empty-shape grid is not the
only guaranteed no-op. -/
theorem claim_C10_thm :
    (∀ (g : GridRep) (store : Store) (draws : Nat → Nat),
        Plane.randomize ⟨[0], g⟩ store draws = .error .valueError)
    ∧ (∀ (ds : List Nat) (base : Nat) (store : Store) (draws : Nat → Nat),
        ds ≠ [] → ds.prod ≠ 0 →
        Plane.randomize ⟨ds ++ [0], .ndview ds base⟩ store draws
          = .error .valueError)
    ∧ (∀ (g : GridRep) (store : Store) (draws : Nat → Nat),
        Plane.randomize ⟨[], g⟩ store draws = .ok (⟨[], g⟩, store))
    ∧ (∀ (ds : List Nat) (n base : Nat) (store : Store) (draws : Nat → Nat),
        ds ≠ [] → ds.prod = 0 →
        Plane.randomize ⟨ds ++ [n], .ndview ds base⟩ store draws
          = .ok (⟨ds ++ [n], .ndview ds base⟩, store)) := by
  refine ⟨?_, ?_, ?_, ?_⟩
  · intro g store draws
    exact randomize_one_err g store draws
  · intro ds base store draws hds hprod
    exact randomize_nd_err ds base store draws hds hprod
  · intro g store draws
    exact randomize_empty_shape g store draws
  · intro ds n base store draws hds hprod
    exact randomize_nd_empty ds n base store draws hds hprod

/-- C10, witness: the amended theorem evaluated on shape `(2,0)` — the
non-empty outer array makes the draw happen and ValueError is raised —
and on shape `(0,4)`, whose empty outer array makes `randomize` a
no-op. -/
theorem claim_C10_witness :
    ([2] : List Nat) ≠ [] ∧ ([2] : List Nat).prod ≠ 0
    ∧ Plane.randomize ⟨[2] ++ [0], .ndview [2] 0⟩ ⟨[[], []]⟩ (fun _ => 0)
        = .error .valueError
    ∧ Plane.randomize ⟨[0] ++ [4], .ndview [0] 0⟩ ⟨[]⟩ (fun _ => 0)
        = .ok (⟨[0] ++ [4], .ndview [0] 0⟩, ⟨[]⟩) :=
  ⟨by decide, by decide,
    claim_C10_thm.2.1 [2] 0 ⟨[[], []]⟩ (fun _ => 0) (by decide) (by decide),
    claim_C10_thm.2.2.2 [0] 4 0 ⟨[]⟩ (fun _ => 0) (by decide) (by decide)⟩

/-- C5, counterexample.  The claim says any coordinate outside the
declared shape — including flattened coordinates — fails with an
index-out-of-bounds error and is never silently wrapped.  The code
disagrees twice: `flatten` performs no bounds checking at all, so on
shape `(2,3,4)` the out-of-range coordinate `(5,5,5)` flattens to
`(20,5)` without error, and a negative component wraps pythonically,
so on shape `(2,4)` the coordinate `(-1,0)` returns the same bit as
`(1,0)` instead of failing. -/
theorem claim_C5_cex :
    (Plane.mk0 [2,3,4]).1.flatten [5,5,5] = .ok (20, 5)
    ∧ (Plane.mk0 [2,4]).1.getitem (Plane.mk0 [2,4]).2 (.tup [-1, 0])
        = .ok (.bit false)
    ∧ (Plane.mk0 [2,4]).1.getitem (Plane.mk0 [2,4]).2 (.tup [-1, 0])
        = (Plane.mk0 [2,4]).1.getitem (Plane.mk0 [2,4]).2 (.tup [1, 0]) :=
  ⟨rfl, rfl, rfl⟩

/-- C5, amended.  Out-of-range rejection as the code implements it: a
tuple longer than the shape fails with IndexError on a grid with an
ndarray storage and with TypeError on a one-dimensional grid (whose
bitarray rejects every tuple index); a full-length tuple of
non-negative components fails with IndexError when an outer component
reaches its dimension, and likewise when the bit offset reaches the
row width; but negative components in range wrap silently (Python
semantics, shown by the counterexample), and `flatten` performs no
bounds check — on any coordinate of admissible arity it returns a
computed pair. -/
theorem claim_C5_thm :
    (∀ (ds : List Nat) (n base : Nat) (store : Store) (t : List Int),
        (ds ++ [n]).length < t.length →
        Plane.getitem ⟨ds ++ [n], .ndview ds base⟩ store (.tup t)
          = .error .indexError)
    ∧ (∀ (shape : List Nat) (r : Row) (store : Store) (t : List Int),
        Plane.getitem ⟨shape, .bitrow r⟩ store (.tup t) = .error .typeError)
    ∧ (∀ (ds : List Nat) (n base : Nat) (store : Store) (cs : List Nat)
          (x : Nat),
        (cs ++ [x]).length = (ds ++ [n]).length →
        ¬ List.Forall₂ (· < ·) cs ds →
        Plane.getitem ⟨ds ++ [n], .ndview ds base⟩ store
            (.tup (natCoords (cs ++ [x])))
          = .error .indexError)
    ∧ (∀ (ds : List Nat) (n base : Nat) (store : Store) (cs : List Nat)
          (x : Nat),
        List.Forall₂ (· < ·) cs ds →
        (store.rows.getD (base + rowMajorIdx ds cs) []).length ≤ x →
        Plane.getitem ⟨ds ++ [n], .ndview ds base⟩ store
            (.tup (natCoords (cs ++ [x])))
          = .error .indexError)
    ∧ (∀ (p : Plane) (c : List Int),
        c ≠ [] → c.length ≤ p.shape.length + 1 →
        (p.flatten c).isOk = true) := by
  refine ⟨?_, ?_, ?_, ?_, ?_⟩
  · intro ds n base store t h
    have hne : ¬ (t.length = (ds ++ [n]).length) := by omega
    have hlong : ds.length < t.length := by
      simp only [List.length_append, List.length_cons, List.length_nil] at h
      omega
    simp only [List.length_append, List.length_cons, List.length_nil] at hne
    simp [Plane.getitem, npIndex_too_long ds t base hlong]
    intro hc
    exact absurd hc (by omega)
  · intro shape r store t
    simp only [Plane.getitem]
    split
    · rfl
    · rfl
  · intro ds n base store cs x hlen hn
    have hcl : cs.length = ds.length := by
      simp only [List.length_append, List.length_cons, List.length_nil] at hlen
      omega
    have hlen' : (natCoords (cs ++ [x])).length = (ds ++ [n]).length := by
      rw [natCoords_length]
      exact hlen
    have hdrop : (natCoords (cs ++ [x])).dropLast = natCoords cs := by
      rw [natCoords_append]
      exact List.dropLast_concat
    have hn' : ¬ List.Forall₂ (· < ·) cs (ds.take cs.length) := by
      rw [hcl, List.take_length]
      exact hn
    simp [Plane.getitem, hlen', hdrop,
      npIndex_oob cs ds base (by omega) hn']
  · intro ds n base store cs x hcs hx
    rw [getitem_full_reduce ds n base store cs x hcs]
    unfold bitIndex
    rw [normIdx_coe_ge _ x hx]
    rfl
  · intro p c hne h
    unfold Plane.flatten
    rw [if_neg (by simpa using hne), if_neg (by omega)]
    rfl

/-- C5, witness: the amended rejection theorem at concrete inputs — a
three-component tuple on shape `(2,4)`, a tuple on a one-dimensional
grid, the out-of-range outer coordinate `(5,0)` and the out-of-range
bit offset `(1,9)` on shape `(2,4)`, and `flatten` completing on the
out-of-range coordinate `(7,7)`. -/
theorem claim_C5_witness :
    Plane.getitem ⟨[2] ++ [4], .ndview [2] 0⟩ ⟨[]⟩ (.tup [0, 0, 0])
        = .error .indexError
    ∧ Plane.getitem ⟨[8], .bitrow (List.replicate 8 false)⟩ ⟨[]⟩ (.tup [3])
        = .error .typeError
    ∧ Plane.getitem ⟨[2] ++ [4], .ndview [2] 0⟩
        ⟨[List.replicate 4 false, List.replicate 4 false]⟩
        (.tup (natCoords ([5] ++ [0]))) = .error .indexError
    ∧ Plane.getitem ⟨[2] ++ [4], .ndview [2] 0⟩
        ⟨[List.replicate 4 false, List.replicate 4 false]⟩
        (.tup (natCoords ([1] ++ [9]))) = .error .indexError
    ∧ (Plane.flatten ⟨[2,4], .ndview [2] 0⟩ [7, 7]).isOk = true :=
  ⟨claim_C5_thm.1 [2] 4 0 ⟨[]⟩ [0, 0, 0] (by decide),
   claim_C5_thm.2.1 [8] (List.replicate 8 false) ⟨[]⟩ [3],
   claim_C5_thm.2.2.1 [2] 4 0 _ [5] 0 (by decide)
     (by intro hf; rw [List.forall₂_cons] at hf; omega),
   claim_C5_thm.2.2.2.1 [2] 4 0 _ [1] 9
     (by constructor
         · omega
         · exact List.Forall₂.nil)
     (by decide),
   claim_C5_thm.2.2.2.2 ⟨[2,4], .ndview [2] 0⟩ [7, 7] (by decide) (by decide)⟩

/-- C3, counterexample.  The claim says every mutation through a view —
including replacing a row via `randomize` on the view — is observable
through the parent grid.  A one-dimensional view breaks this: on the
shape-`(2,4)` grid whose rows are all ones, `p[1]` yields the
one-dimensional view of row 1; `randomize` on that view (drawing 0)
rebinds the view's own bitarray member instead of writing through, so
afterwards the view reads bit 0 as `false` while the parent still reads
`true` at the corresponding coordinate `(1,0)`, with its storage
untouched. -/
theorem claim_C3_cex :
    Plane.getitem ⟨[2,4], .ndview [2] 0⟩
        ⟨[[true,true,true,true],[true,true,true,true]]⟩ (.scalar 1)
      = .ok (.plane ⟨[4], .bitrow [true,true,true,true]⟩)
    ∧ Plane.randomize ⟨[4], .bitrow [true,true,true,true]⟩
        ⟨[[true,true,true,true],[true,true,true,true]]⟩ (fun _ => 0)
      = .ok (⟨[4], .bitrow [false,false,false,false]⟩,
             ⟨[[true,true,true,true],[true,true,true,true]]⟩)
    ∧ Plane.getitem ⟨[2,4], .ndview [2] 0⟩
        ⟨[[true,true,true,true],[true,true,true,true]]⟩ (.tup [1, 0])
      = .ok (.bit true)
    ∧ Plane.getitem ⟨[4], .bitrow [false,false,false,false]⟩
        ⟨[[true,true,true,true],[true,true,true,true]]⟩ (.scalar 0)
      = .ok (.bit false) :=
  ⟨rfl, rfl, rfl, rfl⟩

/-- C3, amended.  For views that still carry at least one outer
dimension (partial tuple index strictly shorter than the number of
outer axes), the claim holds: the view aliases the parent's buffer —
a read through the view equals the parent's read at the prefixed full
coordinate over every storage state, so each mutation through either
handle is observable through the other — and `randomize` on the view
writes through to the parent's buffer, where the parent then reads the
freshly drawn rows.  (A one-dimensional view, by the counterexample,
instead rebinds its own row on `randomize`.) -/
theorem claim_C3_thm (ds : List Nat) (n base : Nat) (ts cs : List Nat)
    (j : Nat) (store store' : Store) (draws : Nat → Nat)
    (h1 : List.Forall₂ (· < ·) ts (ds.take ts.length))
    (h2 : ts.length < ds.length)
    (h3 : List.Forall₂ (· < ·) cs (ds.drop ts.length))
    (h4 : j < n)
    (h5 : ∀ i, draws i < 2 ^ n - 1)
    (h6 : base + ds.prod ≤ store.rows.length) :
    Plane.getitem ⟨ds ++ [n], .ndview ds base⟩ store' (.tup (natCoords ts))
      = .ok (.plane ⟨ds.drop ts.length ++ [n],
          .ndview (ds.drop ts.length) (base + rowMajorIdx ds ts)⟩)
    ∧ Plane.getitem ⟨ds.drop ts.length ++ [n],
          .ndview (ds.drop ts.length) (base + rowMajorIdx ds ts)⟩ store'
        (.tup (natCoords (cs ++ [j])))
      = Plane.getitem ⟨ds ++ [n], .ndview ds base⟩ store'
        (.tup (natCoords ((ts ++ cs) ++ [j])))
    ∧ Plane.randomize ⟨ds.drop ts.length ++ [n],
          .ndview (ds.drop ts.length) (base + rowMajorIdx ds ts)⟩ store draws
      = .ok (⟨ds.drop ts.length ++ [n],
            .ndview (ds.drop ts.length) (base + rowMajorIdx ds ts)⟩,
         ⟨writeRows store.rows (base + rowMajorIdx ds ts)
            (fun i => encodeRow n (draws i)) (ds.drop ts.length).prod⟩)
    ∧ Plane.getitem ⟨ds ++ [n], .ndview ds base⟩
        ⟨writeRows store.rows (base + rowMajorIdx ds ts)
            (fun i => encodeRow n (draws i)) (ds.drop ts.length).prod⟩
        (.tup (natCoords ((ts ++ cs) ++ [j])))
      = .ok (.bit ((encodeRow n
            (draws (rowMajorIdx (ds.drop ts.length) cs))).getD j false)) := by
  have hn1 : 1 ≤ n := width_pos_of_draw n (draws 0) (h5 0)
  have hfull : List.Forall₂ (· < ·) (ts ++ cs) ds := by
    have h := forall₂_lt_append h1 h3
    rwa [List.take_append_drop] at h
  have hq : rowMajorIdx (ds.drop ts.length) cs < (ds.drop ts.length).prod :=
    rowMajorIdx_lt h3
  have hsplit : rowMajorIdx ds (ts ++ cs)
      = rowMajorIdx ds ts + rowMajorIdx (ds.drop ts.length) cs :=
    rowMajorIdx_append_coords ts ds cs (le_of_lt h2)
  have hbound : rowMajorIdx ds ts + (ds.drop ts.length).prod ≤ ds.prod := by
    have htake : rowMajorIdx ds ts
        = rowMajorIdx (ds.take ts.length) ts * (ds.drop ts.length).prod := by
      conv_lhs => rw [← List.take_append_drop ts.length ds]
      exact rowMajorIdx_append_first (ds.take ts.length) (ds.drop ts.length)
        ts h1.length_eq
    have hlt : rowMajorIdx (ds.take ts.length) ts < (ds.take ts.length).prod :=
      rowMajorIdx_lt h1
    have hprod : (ds.take ts.length).prod * (ds.drop ts.length).prod
        = ds.prod := by
      rw [← List.prod_append, List.take_append_drop]
    calc rowMajorIdx ds ts + (ds.drop ts.length).prod
        = rowMajorIdx (ds.take ts.length) ts * (ds.drop ts.length).prod
            + (ds.drop ts.length).prod := by rw [htake]
      _ = (rowMajorIdx (ds.take ts.length) ts + 1) * (ds.drop ts.length).prod := by
            ring
      _ ≤ (ds.take ts.length).prod * (ds.drop ts.length).prod :=
            Nat.mul_le_mul_right _ hlt
      _ = ds.prod := hprod
  refine ⟨getitem_sub ds n base store' ts h1 h2, ?_, ?_, ?_⟩
  · rw [getitem_full_reduce (ds.drop ts.length) n (base + rowMajorIdx ds ts)
      store' cs j h3]
    rw [getitem_full_reduce ds n base store' (ts ++ cs) j hfull]
    rw [hsplit]
    have harr : base + (rowMajorIdx ds ts + rowMajorIdx (ds.drop ts.length) cs)
        = base + rowMajorIdx ds ts + rowMajorIdx (ds.drop ts.length) cs := by
      omega
    rw [harr]
  · have hds'ne : ds.drop ts.length ≠ [] := by
      intro hemp
      have hl := congrArg List.length hemp
      simp only [List.length_drop, List.length_nil] at hl
      omega
    have hmax : 2 ^ n - 1 ≠ 0 := by
      have h2n : 2 ≤ 2 ^ n := by
        calc 2 = 2 ^ 1 := (pow_one 2).symm
          _ ≤ 2 ^ n := Nat.pow_le_pow_right (by omega) hn1
      omega
    have hprodne : (ds.drop ts.length).prod ≠ 0 := by omega
    exact randomize_nd (ds.drop ts.length) n (base + rowMajorIdx ds ts)
      store draws hds'ne hmax hprodne
  · rw [getitem_full_reduce ds n base _ (ts ++ cs) j hfull]
    rw [hsplit]
    have harr : base + (rowMajorIdx ds ts + rowMajorIdx (ds.drop ts.length) cs)
        = base + rowMajorIdx ds ts + rowMajorIdx (ds.drop ts.length) cs := by
      omega
    rw [harr]
    have hgw : (Store.mk (writeRows store.rows (base + rowMajorIdx ds ts)
          (fun i => encodeRow n (draws i)) (ds.drop ts.length).prod)).rows.getD
          (base + rowMajorIdx ds ts + rowMajorIdx (ds.drop ts.length) cs) []
        = encodeRow n (draws (rowMajorIdx (ds.drop ts.length) cs)) :=
      writeRows_getD store.rows (base + rowMajorIdx ds ts) _
        (ds.drop ts.length).prod (rowMajorIdx (ds.drop ts.length) cs) hq
        (by omega)
    rw [hgw]
    unfold bitIndex
    rw [encodeRow_length n (draws (rowMajorIdx (ds.drop ts.length) cs)) hn1
      (by have := h5 (rowMajorIdx (ds.drop ts.length) cs); omega)]
    rw [normIdx_coe n j h4]
    rfl

/-- C3, witness: the amended aliasing theorem on shape `(2,2,2)`, view
`get((1,))`, coordinate `(1,0)` within the view, all rows initially all
ones and every draw equal to 1. -/
theorem claim_C3_witness :
    Plane.getitem ⟨[2,2,2], .ndview [2,2] 0⟩
        ⟨[[true,true],[true,true],[true,true],[true,true]]⟩
        (.tup (natCoords [1]))
      = .ok (.plane ⟨[2,2], .ndview [2] 2⟩)
    ∧ Plane.getitem ⟨[2,2], .ndview [2] 2⟩
        ⟨[[true,true],[true,true],[true,true],[true,true]]⟩
        (.tup (natCoords [1, 0]))
      = Plane.getitem ⟨[2,2,2], .ndview [2,2] 0⟩
        ⟨[[true,true],[true,true],[true,true],[true,true]]⟩
        (.tup (natCoords [1, 1, 0]))
    ∧ Plane.randomize ⟨[2,2], .ndview [2] 2⟩
        ⟨[[true,true],[true,true],[true,true],[true,true]]⟩ (fun _ => 1)
      = .ok (⟨[2,2], .ndview [2] 2⟩,
             ⟨[[true,true],[true,true],[false,true],[false,true]]⟩)
    ∧ Plane.getitem ⟨[2,2,2], .ndview [2,2] 0⟩
        ⟨[[true,true],[true,true],[false,true],[false,true]]⟩
        (.tup (natCoords [1, 1, 0]))
      = .ok (.bit false) :=
  claim_C3_thm [2,2] 2 0 [1] [1] 0
    ⟨[[true,true],[true,true],[true,true],[true,true]]⟩
    ⟨[[true,true],[true,true],[true,true],[true,true]]⟩ (fun _ => 1)
    (List.Forall₂.cons (by omega) List.Forall₂.nil) (by decide)
    (List.Forall₂.cons (by omega) List.Forall₂.nil) (by decide)
    (fun _ => by show 1 < 2 ^ 2 - 1; decide) (by decide)

/-- C7.  Materialisation (`bits`) produces a dense boolean structure of
exactly the grid's logical shape, expanding the rows in storage order,
and it round-trips with reading: at every valid full coordinate the
materialised bit equals the bit `__getitem__` returns.  For a
higher-dimensional grid the coordinate is the full tuple; for a
one-dimensional grid it is the scalar offset (the form the code
supports). -/
theorem claim_C7_thm :
    (∀ (ds : List Nat) (n base : Nat) (store : Store) (cs : List Nat)
        (j : Nat),
      ds ≠ [] →
      (∀ q, q < ds.prod → (store.rows.getD (base + q) []).length = n) →
      List.Forall₂ (· < ·) cs ds → j < n →
      Plane.bits ⟨ds ++ [n], .ndview ds base⟩ store
          = .ok (.arr (ds ++ [n]) (regionRows store base ds.prod).flatten)
      ∧ denseGet (.arr (ds ++ [n]) (regionRows store base ds.prod).flatten)
            (cs ++ [j])
          = (store.rows.getD (base + rowMajorIdx ds cs) []).getD j false
      ∧ Plane.getitem ⟨ds ++ [n], .ndview ds base⟩ store
            (.tup (natCoords (cs ++ [j])))
          = .ok (.bit
              ((store.rows.getD (base + rowMajorIdx ds cs) []).getD j false)))
    ∧ (∀ (n : Nat) (r : Row) (store : Store) (i : Nat),
      r.length = n → i < n →
      Plane.bits ⟨[n], .bitrow r⟩ store = .ok (.arr [n] r)
      ∧ denseGet (.arr [n] r) [i] = r.getD i false
      ∧ Plane.getitem ⟨[n], .bitrow r⟩ store (.scalar ((i : Nat) : Int))
          = .ok (.bit (r.getD i false))) := by
  constructor
  · intro ds n base store cs j hds hrows hcs hj
    have hqlt : rowMajorIdx ds cs < ds.prod := rowMajorIdx_lt hcs
    have hmem : ∀ r ∈ regionRows store base ds.prod, r.length = n := by
      intro r hr
      obtain ⟨q, hq, rfl⟩ := regionRows_mem _ _ _ _ hr
      exact hrows q hq
    refine ⟨bits_nd ds n base store hds hrows, ?_, ?_⟩
    · show (regionRows store base ds.prod).flatten.getD
          (rowMajorIdx (ds ++ [n]) (cs ++ [j])) false
        = (store.rows.getD (base + rowMajorIdx ds cs) []).getD j false
      have hr1 : rowMajorIdx (ds ++ [n]) (cs ++ [j])
          = rowMajorIdx ds cs * n + j := by
        rw [rowMajorIdx_append_coords cs (ds ++ [n]) [j]
          (by have := hcs.length_eq
              simp only [List.length_append, List.length_cons, List.length_nil]
              omega)]
        rw [rowMajorIdx_append_first ds [n] cs hcs.length_eq]
        rw [hcs.length_eq, List.drop_left]
        simp [rowMajorIdx]
      rw [hr1]
      rw [flatten_getD (regionRows store base ds.prod) n hmem
        (rowMajorIdx ds cs) j (by rw [regionRows_length]; exact hqlt) hj]
      rw [regionRows_getD store base ds.prod _ hqlt]
    · rw [getitem_full_reduce ds n base store cs j hcs]
      unfold bitIndex
      rw [hrows _ hqlt, normIdx_coe n j hj]
      rfl
  · intro n r store i hr hi
    refine ⟨?_, ?_, ?_⟩
    · simp [Plane.bits, hr]
    · unfold denseGet
      simp [rowMajorIdx]
    · show (match bitIndex r ((i : Nat) : Int) with
            | Except.error e => Except.error e
            | Except.ok b => Except.ok (GetRes.bit b))
          = Except.ok (GetRes.bit (r.getD i false))
      unfold bitIndex
      rw [hr, normIdx_coe n i hi]

/-- C7, witness: materialisation round-trip on shape `(2,2)` at the
full coordinate `(1,0)`, and on the one-dimensional grid of width 3 at
offset 2, over the concrete storage shown. -/
theorem claim_C7_witness :
    (Plane.bits ⟨[2] ++ [2], .ndview [2] 0⟩ ⟨[[true,false],[false,true]]⟩
        = .ok (.arr ([2] ++ [2])
           (regionRows ⟨[[true,false],[false,true]]⟩ 0 ([2]).prod).flatten)
     ∧ denseGet (.arr ([2] ++ [2])
           (regionRows ⟨[[true,false],[false,true]]⟩ 0 ([2]).prod).flatten)
           ([1] ++ [0]) = false
     ∧ Plane.getitem ⟨[2] ++ [2], .ndview [2] 0⟩ ⟨[[true,false],[false,true]]⟩
           (.tup (natCoords ([1] ++ [0]))) = .ok (.bit false))
    ∧ (Plane.bits ⟨[3], .bitrow [true,false,true]⟩ ⟨[]⟩
        = .ok (.arr [3] [true,false,true])
     ∧ denseGet (.arr [3] [true,false,true]) [2] = true
     ∧ Plane.getitem ⟨[3], .bitrow [true,false,true]⟩ ⟨[]⟩
           (.scalar ((2 : Nat) : Int)) = .ok (.bit true)) :=
  ⟨claim_C7_thm.1 [2] 2 0 ⟨[[true,false],[false,true]]⟩ [1] 0 (by decide)
     (by decide) (List.Forall₂.cons (by omega) List.Forall₂.nil) (by decide),
   claim_C7_thm.2 3 [true,false,true] ⟨[]⟩ 2 (by decide) (by decide)⟩

/-- C8.  Every bit row of a grid's storage has length exactly
`N = shape[-1]`: after default (zero-filled) construction for every
non-empty shape, and after every completed `randomize` — the drawn
value's binary digits are left-padded with zeros by `zfill(N)`, so no
row comes out shorter or longer than `N`. -/
theorem claim_C8_thm :
    (∀ shape : List Nat, shape ≠ [] →
        planeRowsLen (Plane.mk0 shape).1 (Plane.mk0 shape).2)
    ∧ (∀ (n : Nat) (g : GridRep) (store : Store) (draws : Nat → Nat),
        draws 0 < 2 ^ n - 1 →
        Plane.randomize ⟨[n], g⟩ store draws
            = .ok (⟨[n], .bitrow (encodeRow n (draws 0))⟩, store)
        ∧ (encodeRow n (draws 0)).length = n)
    ∧ (∀ (ds : List Nat) (n base : Nat) (store : Store) (draws : Nat → Nat),
        ds ≠ [] → (∀ i, draws i < 2 ^ n - 1) →
        base + ds.prod ≤ store.rows.length →
        Plane.randomize ⟨ds ++ [n], .ndview ds base⟩ store draws
            = .ok (⟨ds ++ [n], .ndview ds base⟩,
                ⟨writeRows store.rows base (fun i => encodeRow n (draws i))
                   ds.prod⟩)
        ∧ ∀ q, q < ds.prod →
            ((writeRows store.rows base (fun i => encodeRow n (draws i))
                ds.prod).getD (base + q) []).length = n) := by
  refine ⟨?_, ?_, ?_⟩
  · intro shape hne
    by_cases h1 : shape.length = 1
    · simp [Plane.mk0, planeRowsLen, h1, Plane.N]
    · simp only [Plane.mk0, if_neg h1, planeRowsLen, Plane.N]
      intro q hq
      rw [Nat.zero_add, List.getD_eq_getElem?_getD, List.getElem?_replicate]
      simp [hq]
  · intro n g store draws hd
    have hmax : 2 ^ n - 1 ≠ 0 := by omega
    exact ⟨randomize_one n g store draws hmax,
      encodeRow_length n (draws 0) (width_pos_of_draw n (draws 0) hd)
        (by omega)⟩
  · intro ds n base store draws hds hdr hlen
    by_cases hprod : ds.prod = 0
    · constructor
      · have hwr : writeRows store.rows base
            (fun i => encodeRow n (draws i)) ds.prod = store.rows := by
          rw [hprod]
          rfl
        rw [hwr]
        exact randomize_nd_empty ds n base store draws hds hprod
      · intro q hq
        exact absurd hq (by omega)
    · have hmax : 2 ^ n - 1 ≠ 0 := by
        have := hdr 0
        omega
      refine ⟨randomize_nd ds n base store draws hds hmax hprod, ?_⟩
      intro q hq
      rw [writeRows_getD store.rows base _ ds.prod q hq hlen]
      exact encodeRow_length n (draws q)
        (width_pos_of_draw n (draws q) (hdr q)) (by have := hdr q; omega)

/-- C8, witness: zero-filled construction of the one-dimensional grid
of width 3, one-dimensional randomisation at width 2 drawing 1, and
higher-dimensional randomisation on shape `(2,1)` drawing 0, reading
back row 1. -/
theorem claim_C8_witness :
    planeRowsLen (Plane.mk0 [3]).1 (Plane.mk0 [3]).2
    ∧ (Plane.randomize ⟨[2], .bitrow []⟩ ⟨[]⟩ (fun _ => 1)
          = .ok (⟨[2], .bitrow (encodeRow 2 1)⟩, ⟨[]⟩)
       ∧ (encodeRow 2 1).length = 2)
    ∧ Plane.randomize ⟨[2] ++ [1], .ndview [2] 0⟩ ⟨[[], []]⟩ (fun _ => 0)
        = .ok (⟨[2] ++ [1], .ndview [2] 0⟩,
            ⟨writeRows [[], []] 0 (fun i => encodeRow 1 ((fun _ => 0) i))
               ([2] : List Nat).prod⟩)
    ∧ ((writeRows [[], []] 0 (fun i => encodeRow 1 ((fun _ => 0) i))
          ([2] : List Nat).prod).getD (0 + 1) []).length = 1 :=
  ⟨claim_C8_thm.1 [3] (by decide),
   claim_C8_thm.2.1 2 (.bitrow []) ⟨[]⟩ (fun _ => 1)
     (by show 1 < 2 ^ 2 - 1; decide),
   (claim_C8_thm.2.2 [2] 1 0 ⟨[[], []]⟩ (fun _ => 0) (by decide)
     (fun _ => by show 0 < 2 ^ 1 - 1; decide) (by decide)).1,
   (claim_C8_thm.2.2 [2] 1 0 ⟨[[], []]⟩ (fun _ => 0) (by decide)
     (fun _ => by show 0 < 2 ^ 1 - 1; decide) (by decide)).2 1 (by decide)⟩

/-- C9.  `randomize` draws each row's value with
`randrange(0, 2**N - 1)`, i.e. from the half-open range `[0, 2^N - 1)`
that excludes `2^N - 1`; consequently, for every admissible draw
sequence, no freshly randomised row — one-dimensional or any row of a
higher-dimensional grid — is ever the all-ones pattern. -/
theorem claim_C9_thm :
    (∀ (n : Nat) (g : GridRep) (store : Store) (draws : Nat → Nat),
        (∀ i, draws i < 2 ^ n - 1) →
        Plane.randomize ⟨[n], g⟩ store draws
            = .ok (⟨[n], .bitrow (encodeRow n (draws 0))⟩, store)
        ∧ encodeRow n (draws 0) ≠ List.replicate n true)
    ∧ (∀ (ds : List Nat) (n base : Nat) (store : Store) (draws : Nat → Nat)
          (q : Nat),
        ds ≠ [] → (∀ i, draws i < 2 ^ n - 1) →
        base + ds.prod ≤ store.rows.length → q < ds.prod →
        Plane.randomize ⟨ds ++ [n], .ndview ds base⟩ store draws
            = .ok (⟨ds ++ [n], .ndview ds base⟩,
                ⟨writeRows store.rows base (fun i => encodeRow n (draws i))
                   ds.prod⟩)
        ∧ (writeRows store.rows base (fun i => encodeRow n (draws i))
             ds.prod).getD (base + q) [] = encodeRow n (draws q)
        ∧ encodeRow n (draws q) ≠ List.replicate n true) := by
  constructor
  · intro n g store draws hdr
    have hmax : 2 ^ n - 1 ≠ 0 := by have := hdr 0; omega
    exact ⟨randomize_one n g store draws hmax,
      encodeRow_ne_ones n (draws 0) (hdr 0)⟩
  · intro ds n base store draws q hds hdr hlen hq
    have hmax : 2 ^ n - 1 ≠ 0 := by have := hdr 0; omega
    have hprod : ds.prod ≠ 0 := by omega
    exact ⟨randomize_nd ds n base store draws hds hmax hprod,
      writeRows_getD store.rows base _ ds.prod q hq hlen,
      encodeRow_ne_ones n (draws q) (hdr q)⟩

/-- C9, witness: width-2 randomisation drawing 2 (the largest
admissible value) never yields the all-ones row, in the
one-dimensional case and for row 0 of shape `(2,2)`. -/
theorem claim_C9_witness :
    (Plane.randomize ⟨[2], .bitrow []⟩ ⟨[]⟩ (fun _ => 2)
        = .ok (⟨[2], .bitrow (encodeRow 2 2)⟩, ⟨[]⟩)
     ∧ encodeRow 2 2 ≠ List.replicate 2 true)
    ∧ (Plane.randomize ⟨[2] ++ [2], .ndview [2] 0⟩ ⟨[[], []]⟩ (fun _ => 2)
        = .ok (⟨[2] ++ [2], .ndview [2] 0⟩,
            ⟨writeRows [[], []] 0 (fun i => encodeRow 2 ((fun _ => 2) i))
               ([2] : List Nat).prod⟩)
     ∧ (writeRows [[], []] 0 (fun i => encodeRow 2 ((fun _ => 2) i))
          ([2] : List Nat).prod).getD (0 + 0) [] = encodeRow 2 2
     ∧ encodeRow 2 2 ≠ List.replicate 2 true) :=
  ⟨claim_C9_thm.1 2 (.bitrow []) ⟨[]⟩ (fun _ => 2)
     (fun _ => by show 2 < 2 ^ 2 - 1; decide),
   claim_C9_thm.2 [2] 2 0 ⟨[[], []]⟩ (fun _ => 2) 0 (by decide)
     (fun _ => by show 2 < 2 ^ 2 - 1; decide) (by decide) (by decide)⟩

end Fifth
